import Mathlib

set_option maxHeartbeats 1000000

/-!
Shallow embedding of the `str_trim_exact` library (`src/lib.rs`).

The library adds two methods to `str`: `trim_left_matches_exactly` and
`trim_right_matches_exactly`.  Each builds a searcher from the pattern,
requests `count` steps from it (forward resp. backward), keeps the running
trim boundary on every `Match` step, bails out with `Err(self)` on any other
step, and on success slices the text at the final boundary.

A Rust `&str` is modelled as a `List Char` (Rust guarantees valid UTF-8, so
the character sequence carries the full information); byte offsets, which is
what the searcher reports and what the code slices with, are recovered from
the UTF-8 byte length of each character.
-/

/-- One step of a searcher, as in `core::str::pattern::SearchStep`:
a pattern occurrence `Match [s, e)`, a confirmed non-match span
`Reject [s, e)`, or `Done` when input is exhausted. -/
inductive SearchStep : Type where
  | Match : Nat → Nat → SearchStep
  | Reject : Nat → Nat → SearchStep
  | Done : SearchStep
  deriving DecidableEq

/-- Byte length of one character's UTF-8 encoding (`char::len_utf8`). -/
def utf8Len (c : Char) : Nat :=
  if c.val < 0x80 then 1
  else if c.val < 0x800 then 2
  else if c.val < 0x10000 then 3
  else 4

/-- Byte length of a text (`str::len`). -/
def byteLen : List Char → Nat
  | [] => 0
  | c :: r => utf8Len c + byteLen r

/-- Byte offset of the boundary sitting after the first `k` characters of
`t`.  These are exactly the valid char boundaries of the text. -/
def bytePos (t : List Char) (k : Nat) : Nat := byteLen (t.take k)

/-- Characters of `t` lying in the byte range `[0, n)`.  At a valid char
boundary `n` this is the prefix of `t` of byte length `n`. -/
def takeBytes : List Char → Nat → List Char
  | [], _ => []
  | c :: r, n => if n < utf8Len c then [] else c :: takeBytes r (n - utf8Len c)

/-- Characters of `t` lying at byte offsets `≥ n`.  At a valid char
boundary `n` this removes the prefix of byte length `n`. -/
def dropBytes : List Char → Nat → List Char
  | [], _ => []
  | c :: r, n => if n = 0 then c :: r else dropBytes r (n - utf8Len c)

/-- `str::slice_unchecked(begin, end)`: the sub-view covering the byte
range `[b, e)` of the text. -/
def slice_unchecked (t : List Char) (b e : Nat) : List Char :=
  dropBytes (takeBytes t e) b

/-- Modelled from the spec: the state of the standard library's searcher
for string and character patterns (`core::str::pattern`, a dependency of
the crate, not part of `src/`).  `front`/`back` are the char indices of the
consumed front resp. the unconsumed back end; the `matchFw`/`matchBw` flags
drive the empty-pattern searcher, which alternates zero-length `Match`
steps at each boundary with one-char `Reject` steps. -/
structure StrSearcher : Type where
  front : Nat
  back : Nat
  matchFw : Bool
  matchBw : Bool
  deriving DecidableEq

/-- `Pattern::into_searcher(self, haystack)`: a fresh searcher covering the
whole text. -/
def into_searcher (t : List Char) : StrSearcher :=
  ⟨0, t.length, false, false⟩

/-- Modelled from the spec: `Searcher::next` for a string pattern `pat`
over text `t`.  A `Match` is reported exactly when the pattern occurs at
the current front position; steps tile the text and never overlap, each
match consuming the text up to its end boundary.  (A char pattern `c`
behaves, step for step as observed here, like the one-char string `[c]`.) -/
def strSearcherNext (pat t : List Char) (st : StrSearcher) : SearchStep × StrSearcher :=
  if pat = [] then
    if st.matchFw then
      if st.front < t.length then
        (SearchStep.Reject (bytePos t st.front) (bytePos t (st.front + 1)),
          ⟨st.front + 1, st.back, false, st.matchBw⟩)
      else (SearchStep.Done, st)
    else
      (SearchStep.Match (bytePos t st.front) (bytePos t st.front),
        ⟨st.front, st.back, true, st.matchBw⟩)
  else
    if pat.isPrefixOf (t.drop st.front) then
      (SearchStep.Match (bytePos t st.front) (bytePos t (st.front + pat.length)),
        ⟨st.front + pat.length, st.back, st.matchFw, st.matchBw⟩)
    else if st.front < t.length then
      (SearchStep.Reject (bytePos t st.front) (bytePos t (st.front + 1)),
        ⟨st.front + 1, st.back, st.matchFw, st.matchBw⟩)
    else (SearchStep.Done, st)

/-- Modelled from the spec: `ReverseSearcher::next_back` for a string
pattern, symmetric to `strSearcherNext`, scanning from the back end. -/
def strSearcherNextBack (pat t : List Char) (st : StrSearcher) : SearchStep × StrSearcher :=
  if pat = [] then
    if st.matchBw then
      if 0 < st.back then
        (SearchStep.Reject (bytePos t (st.back - 1)) (bytePos t st.back),
          ⟨st.front, st.back - 1, st.matchFw, false⟩)
      else (SearchStep.Done, st)
    else
      (SearchStep.Match (bytePos t st.back) (bytePos t st.back),
        ⟨st.front, st.back, st.matchFw, true⟩)
  else
    if pat.isSuffixOf (t.take st.back) then
      (SearchStep.Match (bytePos t (st.back - pat.length)) (bytePos t st.back),
        ⟨st.front, st.back - pat.length, st.matchFw, st.matchBw⟩)
    else if 0 < st.back then
      (SearchStep.Reject (bytePos t (st.back - 1)) (bytePos t st.back),
        ⟨st.front, st.back - 1, st.matchFw, st.matchBw⟩)
    else (SearchStep.Done, st)

/-- The `for _ in 0..count` loop of `trim_left_matches_exactly`
(src/lib.rs:62-67): request `count` steps; on `Match(_, match_end)` set
`trim_idx = match_end` and continue, on anything else fail (`none`). -/
def trimLeftLoop {σ : Type} (next : σ → SearchStep × σ) : Nat → σ → Nat → Option Nat
  | 0, _, trim_idx => some trim_idx
  | n + 1, st, _ =>
    match next st with
    | (SearchStep.Match _ match_end, st') => trimLeftLoop next n st' match_end
    | _ => none

/-- The `for _ in 0..count` loop of `trim_right_matches_exactly`
(src/lib.rs:78-83): on `Match(match_start, _)` set `trim_idx = match_start`. -/
def trimRightLoop {σ : Type} (next_back : σ → SearchStep × σ) : Nat → σ → Nat → Option Nat
  | 0, _, trim_idx => some trim_idx
  | n + 1, st, _ =>
    match next_back st with
    | (SearchStep.Match match_start _, st') => trimRightLoop next_back n st' match_start
    | _ => none

/-- `trim_left_matches_exactly` (src/lib.rs:57-70), generic over the
searcher exactly as the Rust function is generic over `P: Pattern`:
`trim_idx` starts at `0`; on loop success the result is
`self.slice_unchecked(trim_idx, self.len())`, on failure `Err(self)`. -/
def trim_left_matches_exactly_gen {σ : Type} (next : σ → SearchStep × σ) (matcher : σ)
    (text : List Char) (count : Nat) : Except (List Char) (List Char) :=
  match trimLeftLoop next count matcher 0 with
  | some trim_idx => Except.ok (slice_unchecked text trim_idx (byteLen text))
  | none => Except.error text

/-- `trim_right_matches_exactly` (src/lib.rs:72-86), generic over the
searcher: `trim_idx` starts at `self.len()`; on success the result is
`self.slice_unchecked(0, trim_idx)`, on failure `Err(self)`. -/
def trim_right_matches_exactly_gen {σ : Type} (next_back : σ → SearchStep × σ) (matcher : σ)
    (text : List Char) (count : Nat) : Except (List Char) (List Char) :=
  match trimRightLoop next_back count matcher (byteLen text) with
  | some trim_idx => Except.ok (slice_unchecked text 0 trim_idx)
  | none => Except.error text

/-- `trim_left_matches_exactly` instantiated at string patterns. -/
def trim_left_matches_exactly (text pat : List Char) (count : Nat) :
    Except (List Char) (List Char) :=
  trim_left_matches_exactly_gen (strSearcherNext pat text) (into_searcher text) text count

/-- `trim_right_matches_exactly` instantiated at string patterns. -/
def trim_right_matches_exactly (text pat : List Char) (count : Nat) :
    Except (List Char) (List Char) :=
  trim_right_matches_exactly_gen (strSearcherNextBack pat text) (into_searcher text) text count

instance {ε α : Type} [DecidableEq ε] [DecidableEq α] : DecidableEq (Except ε α) := fun a b =>
  match a, b with
  | Except.ok x, Except.ok y =>
    if h : x = y then isTrue (by rw [h]) else isFalse (fun hc => h (Except.ok.inj hc))
  | Except.error x, Except.error y =>
    if h : x = y then isTrue (by rw [h]) else isFalse (fun hc => h (Except.error.inj hc))
  | Except.ok _, Except.error _ => isFalse (fun hc => Except.noConfusion hc)
  | Except.error _, Except.ok _ => isFalse (fun hc => Except.noConfusion hc)

/-! ### Spec-side definitions

The following definitions follow the spec's words (§4.1) rather than the
source; they are used to state the refinement claims comparing the code
with the spec's description of the algorithm. -/

/-- Following the spec's words: the sequence of the first `n` steps
produced by a searcher. -/
def stepsFrom {σ : Type} (next : σ → SearchStep × σ) : Nat → σ → List SearchStep
  | 0, _ => []
  | n + 1, st => (next st).1 :: stepsFrom next n (next st).2

/-- Whether a step is a `Match` step. -/
def SearchStep.isMatch : SearchStep → Bool
  | SearchStep.Match _ _ => true
  | _ => false

/-- Following the spec's words: "If the step is a Match at range [s, e):
set `boundary = e`". -/
def leftStepBoundary (b : Nat) : SearchStep → Nat
  | SearchStep.Match _ e => e
  | _ => b

/-- Following the spec's words: "If Match at range [s, e): set
`boundary = s`". -/
def rightStepBoundary (b : Nat) : SearchStep → Nat
  | SearchStep.Match s _ => s
  | _ => b

/-- Following the spec's words: the trim boundary after a sequence of
forward steps, "initialized to 0". -/
def leftBoundary (steps : List SearchStep) : Nat :=
  steps.foldl leftStepBoundary 0

/-- Following the spec's words: the trim boundary after a sequence of
backward steps, initialized to `text.length`. -/
def rightBoundary (text : List Char) (steps : List SearchStep) : Nat :=
  steps.foldl rightStepBoundary (byteLen text)

/-- Following the spec's words (§4.1, trim-from-start): if the first
`count` steps are all `Match` steps, return the sub-view of `text` from
the final boundary to `text.length`; on any other step among them, return
the original `text` as the failure value. -/
def trimLeftSpec {σ : Type} (next : σ → SearchStep × σ) (matcher : σ)
    (text : List Char) (count : Nat) : Except (List Char) (List Char) :=
  if (stepsFrom next count matcher).all SearchStep.isMatch then
    Except.ok (slice_unchecked text (leftBoundary (stepsFrom next count matcher)) (byteLen text))
  else Except.error text

/-- Following the spec's words (§4.1, trim-from-end): if the first `count`
backward steps are all `Match` steps, return the sub-view of `text` from
0 to the final boundary; otherwise return the original `text`. -/
def trimRightSpec {σ : Type} (next_back : σ → SearchStep × σ) (matcher : σ)
    (text : List Char) (count : Nat) : Except (List Char) (List Char) :=
  if (stepsFrom next_back count matcher).all SearchStep.isMatch then
    Except.ok (slice_unchecked text 0 (rightBoundary text (stepsFrom next_back count matcher)))
  else Except.error text

/-- `n` consecutive non-overlapping occurrences of `pat` at the very
front of `rest`. -/
def prefixPow (pat : List Char) : Nat → List Char → Bool
  | 0, _ => true
  | n + 1, rest => pat.isPrefixOf rest && prefixPow pat n (rest.drop pat.length)

/-- `n` consecutive non-overlapping occurrences of `pat` at the very
back of `front`. -/
def suffixPow (pat : List Char) : Nat → List Char → Bool
  | 0, _ => true
  | n + 1, front => pat.isSuffixOf front && suffixPow pat n (front.take (front.length - pat.length))

/-! ### Byte-offset and slicing lemmas -/

theorem utf8Len_pos (c : Char) : 0 < utf8Len c := by
  unfold utf8Len
  split
  · exact Nat.one_pos
  · split
    · exact Nat.zero_lt_two
    · split
      · exact Nat.zero_lt_succ 2
      · exact Nat.zero_lt_succ 3

theorem bytePos_zero (t : List Char) : bytePos t 0 = 0 := rfl

theorem bytePos_length (t : List Char) : bytePos t t.length = byteLen t := by
  unfold bytePos
  rw [List.take_length]

theorem bytePos_le_byteLen (t : List Char) (k : Nat) : bytePos t k ≤ byteLen t := by
  induction t generalizing k with
  | nil => simp [bytePos, byteLen]
  | cons c r ih =>
    cases k with
    | zero => simp [bytePos_zero]
    | succ k =>
      show utf8Len c + byteLen (r.take k) ≤ utf8Len c + byteLen r
      exact Nat.add_le_add_left (ih k) _

theorem takeBytes_byteLen (t : List Char) : takeBytes t (byteLen t) = t := by
  induction t with
  | nil => rfl
  | cons c r ih =>
    show takeBytes (c :: r) (utf8Len c + byteLen r) = c :: r
    unfold takeBytes
    rw [if_neg (by omega), Nat.add_sub_cancel_left, ih]

theorem dropBytes_zero (t : List Char) : dropBytes t 0 = t := by
  cases t with
  | nil => rfl
  | cons c r => simp [dropBytes]

theorem dropBytes_bytePos (t : List Char) (k : Nat) : dropBytes t (bytePos t k) = t.drop k := by
  induction t generalizing k with
  | nil => simp [bytePos, byteLen, dropBytes]
  | cons c r ih =>
    cases k with
    | zero => simp [bytePos_zero, dropBytes_zero]
    | succ k =>
      show dropBytes (c :: r) (utf8Len c + byteLen (r.take k)) = r.drop k
      unfold dropBytes
      rw [if_neg (by have := utf8Len_pos c; omega), Nat.add_sub_cancel_left]
      exact ih k

theorem takeBytes_bytePos (t : List Char) (k : Nat) : takeBytes t (bytePos t k) = t.take k := by
  induction t generalizing k with
  | nil => simp [bytePos, byteLen, takeBytes]
  | cons c r ih =>
    cases k with
    | zero =>
      show takeBytes (c :: r) 0 = []
      unfold takeBytes
      rw [if_pos (utf8Len_pos c)]
    | succ k =>
      show takeBytes (c :: r) (utf8Len c + byteLen (r.take k)) = c :: r.take k
      unfold takeBytes
      rw [if_neg (by omega), Nat.add_sub_cancel_left]
      exact congrArg (c :: ·) (ih k)

theorem slice_unchecked_drop (t : List Char) (k : Nat) :
    slice_unchecked t (bytePos t k) (byteLen t) = t.drop k := by
  unfold slice_unchecked
  rw [takeBytes_byteLen, dropBytes_bytePos]

theorem slice_unchecked_take (t : List Char) (k : Nat) :
    slice_unchecked t 0 (bytePos t k) = t.take k := by
  unfold slice_unchecked
  rw [dropBytes_zero, takeBytes_bytePos]

theorem slice_unchecked_full (t : List Char) :
    slice_unchecked t 0 (byteLen t) = t := by
  unfold slice_unchecked
  rw [dropBytes_zero, takeBytes_byteLen]

theorem isPrefixOf_length_le {p l : List Char} (h : p.isPrefixOf l = true) :
    p.length ≤ l.length := by
  induction p generalizing l with
  | nil => simp
  | cons a p ih =>
    cases l with
    | nil => simp [List.isPrefixOf] at h
    | cons b l =>
      rw [List.isPrefixOf_cons₂, Bool.and_eq_true] at h
      simpa using ih h.2

/-! ### Loop characterization lemmas -/

theorem trimLeftLoop_eq_steps {σ : Type} (next : σ → SearchStep × σ) :
    ∀ (n : Nat) (st : σ) (j : Nat),
      trimLeftLoop next n st j =
        if (stepsFrom next n st).all SearchStep.isMatch then
          some ((stepsFrom next n st).foldl leftStepBoundary j)
        else none := by
  intro n
  induction n with
  | zero => intro st j; simp [trimLeftLoop, stepsFrom]
  | succ n ih =>
    intro st j
    rcases hs : next st with ⟨s, st'⟩
    cases s with
    | Match a e =>
      simp only [trimLeftLoop, hs]
      show trimLeftLoop next n st' e = _
      rw [ih st' e]
      simp [stepsFrom, hs, SearchStep.isMatch, leftStepBoundary]
    | Reject a e =>
      simp only [trimLeftLoop, hs]
      show (none : Option Nat) = _
      simp [stepsFrom, hs, SearchStep.isMatch]
    | Done =>
      simp only [trimLeftLoop, hs]
      show (none : Option Nat) = _
      simp [stepsFrom, hs, SearchStep.isMatch]

theorem trimRightLoop_eq_steps {σ : Type} (next_back : σ → SearchStep × σ) :
    ∀ (n : Nat) (st : σ) (j : Nat),
      trimRightLoop next_back n st j =
        if (stepsFrom next_back n st).all SearchStep.isMatch then
          some ((stepsFrom next_back n st).foldl rightStepBoundary j)
        else none := by
  intro n
  induction n with
  | zero => intro st j; simp [trimRightLoop, stepsFrom]
  | succ n ih =>
    intro st j
    rcases hs : next_back st with ⟨s, st'⟩
    cases s with
    | Match a e =>
      simp only [trimRightLoop, hs]
      show trimRightLoop next_back n st' a = _
      rw [ih st' a]
      simp [stepsFrom, hs, SearchStep.isMatch, rightStepBoundary]
    | Reject a e =>
      simp only [trimRightLoop, hs]
      show (none : Option Nat) = _
      simp [stepsFrom, hs, SearchStep.isMatch]
    | Done =>
      simp only [trimRightLoop, hs]
      show (none : Option Nat) = _
      simp [stepsFrom, hs, SearchStep.isMatch]

theorem trimLeftLoop_str (t pat : List Char) (hpat : pat ≠ []) :
    ∀ (n f bk : Nat) (mf mb : Bool),
      trimLeftLoop (strSearcherNext pat t) n ⟨f, bk, mf, mb⟩ (bytePos t f) =
        if prefixPow pat n (t.drop f) then
          some (bytePos t (f + n * pat.length))
        else none := by
  intro n
  induction n with
  | zero => intro f bk mf mb; simp [trimLeftLoop, prefixPow]
  | succ n ih =>
    intro f bk mf mb
    cases hpre : pat.isPrefixOf (t.drop f) with
    | true =>
      have hstep : strSearcherNext pat t ⟨f, bk, mf, mb⟩ =
          (SearchStep.Match (bytePos t f) (bytePos t (f + pat.length)),
            ⟨f + pat.length, bk, mf, mb⟩) := by
        simp [strSearcherNext, hpat, hpre]
      simp only [trimLeftLoop, hstep]
      show trimLeftLoop (strSearcherNext pat t) n ⟨f + pat.length, bk, mf, mb⟩
          (bytePos t (f + pat.length)) = _
      rw [ih (f + pat.length) bk mf mb]
      have hdrop : (t.drop f).drop pat.length = t.drop (f + pat.length) := by
        rw [List.drop_drop]
      have hidx : f + pat.length + n * pat.length = f + (n + 1) * pat.length := by
        rw [Nat.succ_mul]; omega
      simp only [prefixPow, hpre, Bool.true_and, hdrop, hidx]
    | false =>
      have hnone : trimLeftLoop (strSearcherNext pat t) (n + 1) ⟨f, bk, mf, mb⟩ (bytePos t f)
          = none := by
        by_cases hf : f < t.length
        · have hstep : strSearcherNext pat t ⟨f, bk, mf, mb⟩ =
              (SearchStep.Reject (bytePos t f) (bytePos t (f + 1)), ⟨f + 1, bk, mf, mb⟩) := by
            simp [strSearcherNext, hpat, hpre, hf]
          simp [trimLeftLoop, hstep]
        · have hstep : strSearcherNext pat t ⟨f, bk, mf, mb⟩ =
              (SearchStep.Done, ⟨f, bk, mf, mb⟩) := by
            simp [strSearcherNext, hpat, hpre, hf]
          simp [trimLeftLoop, hstep]
      rw [hnone]
      simp [prefixPow, hpre]

theorem trimRightLoop_str (t pat : List Char) (hpat : pat ≠ []) :
    ∀ (n f p : Nat) (mf mb : Bool), p ≤ t.length →
      trimRightLoop (strSearcherNextBack pat t) n ⟨f, p, mf, mb⟩ (bytePos t p) =
        if suffixPow pat n (t.take p) then
          some (bytePos t (p - n * pat.length))
        else none := by
  intro n
  induction n with
  | zero => intro f p mf mb hp; simp [trimRightLoop, suffixPow]
  | succ n ih =>
    intro f p mf mb hp
    cases hsuf : pat.isSuffixOf (t.take p) with
    | true =>
      have hstep : strSearcherNextBack pat t ⟨f, p, mf, mb⟩ =
          (SearchStep.Match (bytePos t (p - pat.length)) (bytePos t p),
            ⟨f, p - pat.length, mf, mb⟩) := by
        simp [strSearcherNextBack, hpat, hsuf]
      simp only [trimRightLoop, hstep]
      show trimRightLoop (strSearcherNextBack pat t) n ⟨f, p - pat.length, mf, mb⟩
          (bytePos t (p - pat.length)) = _
      rw [ih f (p - pat.length) mf mb (by omega)]
      have hlen : (t.take p).length = p := by rw [List.length_take]; omega
      have htake : (t.take p).take ((t.take p).length - pat.length) = t.take (p - pat.length) := by
        rw [hlen, List.take_take]
        congr 1
        omega
      have hidx : p - pat.length - n * pat.length = p - (n + 1) * pat.length := by
        rw [Nat.succ_mul]; omega
      simp only [suffixPow, hsuf, Bool.true_and, htake, hidx]
    | false =>
      have hnone : trimRightLoop (strSearcherNextBack pat t) (n + 1) ⟨f, p, mf, mb⟩ (bytePos t p)
          = none := by
        by_cases hb : 0 < p
        · have hstep : strSearcherNextBack pat t ⟨f, p, mf, mb⟩ =
              (SearchStep.Reject (bytePos t (p - 1)) (bytePos t p), ⟨f, p - 1, mf, mb⟩) := by
            simp [strSearcherNextBack, hpat, hsuf, hb]
          simp [trimRightLoop, hstep]
        · have hstep : strSearcherNextBack pat t ⟨f, p, mf, mb⟩ =
              (SearchStep.Done, ⟨f, p, mf, mb⟩) := by
            simp [strSearcherNextBack, hpat, hsuf, hb]
          simp [trimRightLoop, hstep]
      rw [hnone]
      simp [suffixPow, hsuf]

theorem trim_left_closed (t pat : List Char) (hpat : pat ≠ []) (n : Nat) :
    trim_left_matches_exactly t pat n =
      if prefixPow pat n t then Except.ok (t.drop (n * pat.length))
      else Except.error t := by
  have hloop := trimLeftLoop_str t pat hpat n 0 t.length false false
  simp only [bytePos_zero, List.drop_zero, Nat.zero_add] at hloop
  show trim_left_matches_exactly_gen (strSearcherNext pat t) ⟨0, t.length, false, false⟩ t n = _
  unfold trim_left_matches_exactly_gen
  rw [hloop]
  cases hcond : prefixPow pat n t with
  | true => simp [slice_unchecked_drop]
  | false => simp

theorem trim_right_closed (t pat : List Char) (hpat : pat ≠ []) (n : Nat) :
    trim_right_matches_exactly t pat n =
      if suffixPow pat n t then Except.ok (t.take (t.length - n * pat.length))
      else Except.error t := by
  have hloop := trimRightLoop_str t pat hpat n 0 t.length false false (Nat.le_refl _)
  rw [bytePos_length, List.take_length] at hloop
  show trim_right_matches_exactly_gen (strSearcherNextBack pat t) ⟨0, t.length, false, false⟩ t n = _
  unfold trim_right_matches_exactly_gen
  rw [hloop]
  cases hcond : suffixPow pat n t with
  | true => simp [slice_unchecked_take]
  | false => simp

theorem suffixPow_reverse (pat : List Char) :
    ∀ (n : Nat) (front : List Char),
      suffixPow pat n front = prefixPow pat.reverse n front.reverse := by
  intro n
  induction n with
  | zero => intro front; rfl
  | succ n ih =>
    intro front
    show (pat.isSuffixOf front && suffixPow pat n (front.take (front.length - pat.length)))
        = (pat.reverse.isPrefixOf front.reverse
            && prefixPow pat.reverse n (front.reverse.drop pat.reverse.length))
    have h2 : front.reverse.drop pat.reverse.length
        = (front.take (front.length - pat.length)).reverse := by
      rw [List.length_reverse, List.drop_reverse]
    rw [h2, ih]
    rfl

theorem trimLeftLoop_boundary (t pat : List Char) :
    ∀ (n f bk : Nat) (mf mb : Bool) (j i : Nat), f ≤ t.length →
      (∃ m, m ≤ t.length ∧ j = bytePos t m) →
      trimLeftLoop (strSearcherNext pat t) n ⟨f, bk, mf, mb⟩ j = some i →
      ∃ m, m ≤ t.length ∧ i = bytePos t m := by
  intro n
  induction n with
  | zero =>
    intro f bk mf mb j i hf hj h
    have hji : j = i := by simpa [trimLeftLoop] using h
    rw [← hji]
    exact hj
  | succ n ih =>
    intro f bk mf mb j i hf hj h
    simp only [trimLeftLoop] at h
    by_cases hpat : pat = []
    · subst hpat
      cases mf with
      | false =>
        rw [show strSearcherNext [] t ⟨f, bk, false, mb⟩ =
            (SearchStep.Match (bytePos t f) (bytePos t f), ⟨f, bk, true, mb⟩) from by
          simp [strSearcherNext]] at h
        exact ih f bk true mb (bytePos t f) i hf ⟨f, hf, rfl⟩ h
      | true =>
        by_cases hfl : f < t.length
        · rw [show strSearcherNext [] t ⟨f, bk, true, mb⟩ =
              (SearchStep.Reject (bytePos t f) (bytePos t (f + 1)), ⟨f + 1, bk, false, mb⟩)
              from by simp [strSearcherNext, hfl]] at h
          exact Option.noConfusion h
        · rw [show strSearcherNext [] t ⟨f, bk, true, mb⟩ =
              (SearchStep.Done, ⟨f, bk, true, mb⟩) from by simp [strSearcherNext, hfl]] at h
          exact Option.noConfusion h
    · cases hpre : pat.isPrefixOf (t.drop f) with
      | true =>
        rw [show strSearcherNext pat t ⟨f, bk, mf, mb⟩ =
            (SearchStep.Match (bytePos t f) (bytePos t (f + pat.length)),
              ⟨f + pat.length, bk, mf, mb⟩) from by simp [strSearcherNext, hpat, hpre]] at h
        have hlen : pat.length ≤ t.length - f := by
          have := isPrefixOf_length_le hpre
          rwa [List.length_drop] at this
        exact ih (f + pat.length) bk mf mb (bytePos t (f + pat.length)) i (by omega)
          ⟨f + pat.length, by omega, rfl⟩ h
      | false =>
        by_cases hfl : f < t.length
        · rw [show strSearcherNext pat t ⟨f, bk, mf, mb⟩ =
              (SearchStep.Reject (bytePos t f) (bytePos t (f + 1)), ⟨f + 1, bk, mf, mb⟩)
              from by simp [strSearcherNext, hpat, hpre, hfl]] at h
          exact Option.noConfusion h
        · rw [show strSearcherNext pat t ⟨f, bk, mf, mb⟩ =
              (SearchStep.Done, ⟨f, bk, mf, mb⟩) from by
            simp [strSearcherNext, hpat, hpre, hfl]] at h
          exact Option.noConfusion h

theorem trimRightLoop_boundary (t pat : List Char) :
    ∀ (n f p : Nat) (mf mb : Bool) (j i : Nat), p ≤ t.length →
      (∃ m, m ≤ t.length ∧ j = bytePos t m) →
      trimRightLoop (strSearcherNextBack pat t) n ⟨f, p, mf, mb⟩ j = some i →
      ∃ m, m ≤ t.length ∧ i = bytePos t m := by
  intro n
  induction n with
  | zero =>
    intro f p mf mb j i hp hj h
    have hji : j = i := by simpa [trimRightLoop] using h
    rw [← hji]
    exact hj
  | succ n ih =>
    intro f p mf mb j i hp hj h
    simp only [trimRightLoop] at h
    by_cases hpat : pat = []
    · subst hpat
      cases mb with
      | false =>
        rw [show strSearcherNextBack [] t ⟨f, p, mf, false⟩ =
            (SearchStep.Match (bytePos t p) (bytePos t p), ⟨f, p, mf, true⟩) from by
          simp [strSearcherNextBack]] at h
        exact ih f p mf true (bytePos t p) i hp ⟨p, hp, rfl⟩ h
      | true =>
        by_cases hb : 0 < p
        · rw [show strSearcherNextBack [] t ⟨f, p, mf, true⟩ =
              (SearchStep.Reject (bytePos t (p - 1)) (bytePos t p), ⟨f, p - 1, mf, false⟩)
              from by simp [strSearcherNextBack, hb]] at h
          exact Option.noConfusion h
        · rw [show strSearcherNextBack [] t ⟨f, p, mf, true⟩ =
              (SearchStep.Done, ⟨f, p, mf, true⟩) from by simp [strSearcherNextBack, hb]] at h
          exact Option.noConfusion h
    · cases hsuf : pat.isSuffixOf (t.take p) with
      | true =>
        rw [show strSearcherNextBack pat t ⟨f, p, mf, mb⟩ =
            (SearchStep.Match (bytePos t (p - pat.length)) (bytePos t p),
              ⟨f, p - pat.length, mf, mb⟩) from by simp [strSearcherNextBack, hpat, hsuf]] at h
        exact ih f (p - pat.length) mf mb (bytePos t (p - pat.length)) i (by omega)
          ⟨p - pat.length, by omega, rfl⟩ h
      | false =>
        by_cases hb : 0 < p
        · rw [show strSearcherNextBack pat t ⟨f, p, mf, mb⟩ =
              (SearchStep.Reject (bytePos t (p - 1)) (bytePos t p), ⟨f, p - 1, mf, mb⟩)
              from by simp [strSearcherNextBack, hpat, hsuf, hb]] at h
          exact Option.noConfusion h
        · rw [show strSearcherNextBack pat t ⟨f, p, mf, mb⟩ =
              (SearchStep.Done, ⟨f, p, mf, mb⟩) from by
            simp [strSearcherNextBack, hpat, hsuf, hb]] at h
          exact Option.noConfusion h

/-! ### Claim theorems -/

theorem trimLeft_gen_eq_spec {σ : Type} (next : σ → SearchStep × σ) (matcher : σ)
    (text : List Char) (count : Nat) :
    trim_left_matches_exactly_gen next matcher text count
      = trimLeftSpec next matcher text count := by
  unfold trim_left_matches_exactly_gen trimLeftSpec leftBoundary
  rw [trimLeftLoop_eq_steps next count matcher 0]
  cases hc : (stepsFrom next count matcher).all SearchStep.isMatch with
  | true => simp
  | false => simp

theorem trimRight_gen_eq_spec {σ : Type} (next_back : σ → SearchStep × σ) (matcher : σ)
    (text : List Char) (count : Nat) :
    trim_right_matches_exactly_gen next_back matcher text count
      = trimRightSpec next_back matcher text count := by
  unfold trim_right_matches_exactly_gen trimRightSpec rightBoundary
  rw [trimRightLoop_eq_steps next_back count matcher (byteLen text)]
  cases hc : (stepsFrom next_back count matcher).all SearchStep.isMatch with
  | true => simp
  | false => simp

/-- Claim C1: for every text, pattern (modelled by an arbitrary searcher)
and count, if `trim_left_matches_exactly` or `trim_right_matches_exactly`
returns `Err(X)`, then `X` is identical to the original input text — no
partially trimmed slice is ever observable on failure. -/
theorem C1_all_or_nothing (σ : Type) (next next_back : σ → SearchStep × σ) (matcher : σ)
    (text : List Char) (count : Nat) (X : List Char) :
    (trim_left_matches_exactly_gen next matcher text count = Except.error X → X = text) ∧
    (trim_right_matches_exactly_gen next_back matcher text count = Except.error X → X = text) := by
  constructor
  · intro h
    unfold trim_left_matches_exactly_gen at h
    cases hl : trimLeftLoop next count matcher 0 with
    | some v => rw [hl] at h; exact Except.noConfusion h
    | none => rw [hl] at h; exact (Except.error.inj h).symm
  · intro h
    unfold trim_right_matches_exactly_gen at h
    cases hl : trimRightLoop next_back count matcher (byteLen text) with
    | some v => rw [hl] at h; exact Except.noConfusion h
    | none => rw [hl] at h; exact (Except.error.inj h).symm

/-- Witness for C1 at a concrete failing input: both hypotheses hold for
text `"aab"`, pattern `"b"`, count 1. -/
theorem C1_all_or_nothing_witness : "aab".data = "aab".data ∧ "aab".data = "aab".data :=
  ⟨(C1_all_or_nothing StrSearcher (strSearcherNext "x".data "aab".data)
      (strSearcherNextBack "x".data "aab".data) (into_searcher "aab".data)
      "aab".data 1 "aab".data).1 (by decide),
   (C1_all_or_nothing StrSearcher (strSearcherNext "x".data "aab".data)
      (strSearcherNextBack "x".data "aab".data) (into_searcher "aab".data)
      "aab".data 1 "aab".data).2 (by decide)⟩

/-- Claim C2: `trim_left_matches_exactly` returns `Ok` iff the first
`count` steps of the forward searcher are all `Match` steps; in that case
the result is the sub-view of the text from the end offset of the last
match (0 when `count = 0`) to the text's byte length, and on any `Reject`
or `Done` step among the first `count` it returns `Err` carrying the
original text.  Stated as equality with `trimLeftSpec`, the definition
following the spec's words, both for an arbitrary searcher and for the
string-pattern instance. -/
theorem C2_left_refines_spec (σ : Type) (next : σ → SearchStep × σ) (matcher : σ)
    (text : List Char) (count : Nat) :
    trim_left_matches_exactly_gen next matcher text count
      = trimLeftSpec next matcher text count ∧
    ∀ pat : List Char, trim_left_matches_exactly text pat count
      = trimLeftSpec (strSearcherNext pat text) (into_searcher text) text count :=
  ⟨trimLeft_gen_eq_spec next matcher text count,
   fun pat => trimLeft_gen_eq_spec (strSearcherNext pat text) (into_searcher text) text count⟩

/-- Claim C3: `trim_right_matches_exactly` returns `Ok` iff the first
`count` backward steps of the reverse searcher are all `Match` steps; in
that case the result is the sub-view of the text from offset 0 to the
start offset of the last backward match (`text.length` when `count = 0`),
otherwise `Err` carrying the original text.  Stated as equality with
`trimRightSpec`, the definition following the spec's words. -/
theorem C3_right_refines_spec (σ : Type) (next_back : σ → SearchStep × σ) (matcher : σ)
    (text : List Char) (count : Nat) :
    trim_right_matches_exactly_gen next_back matcher text count
      = trimRightSpec next_back matcher text count ∧
    ∀ pat : List Char, trim_right_matches_exactly text pat count
      = trimRightSpec (strSearcherNextBack pat text) (into_searcher text) text count :=
  ⟨trimRight_gen_eq_spec next_back matcher text count,
   fun pat => trimRight_gen_eq_spec (strSearcherNextBack pat text) (into_searcher text) text count⟩

/-- Claim C6: count 0 always succeeds trivially, returning the input
unchanged as a success (`Ok`), never as a failure — for every text and
every pattern (arbitrary searcher, and the string-pattern instance). -/
theorem C6_zero_count_identity (σ : Type) (next next_back : σ → SearchStep × σ) (matcher : σ)
    (text pat : List Char) :
    trim_left_matches_exactly_gen next matcher text 0 = Except.ok text ∧
    trim_right_matches_exactly_gen next_back matcher text 0 = Except.ok text ∧
    trim_left_matches_exactly text pat 0 = Except.ok text ∧
    trim_right_matches_exactly text pat 0 = Except.ok text := by
  have hl : ∀ (τ : Type) (nx : τ → SearchStep × τ) (m : τ),
      trim_left_matches_exactly_gen nx m text 0 = Except.ok text := by
    intro τ nx m
    show Except.ok (slice_unchecked text 0 (byteLen text)) = Except.ok text
    rw [slice_unchecked_full]
  have hr : ∀ (τ : Type) (nx : τ → SearchStep × τ) (m : τ),
      trim_right_matches_exactly_gen nx m text 0 = Except.ok text := by
    intro τ nx m
    show Except.ok (slice_unchecked text 0 (byteLen text)) = Except.ok text
    rw [slice_unchecked_full]
  exact ⟨hl σ next matcher, hr σ next_back matcher,
    hl StrSearcher (strSearcherNext pat text) (into_searcher text),
    hr StrSearcher (strSearcherNextBack pat text) (into_searcher text)⟩

/-- Claim C5: the six literal examples of the documentation, plus the
idempotent failure boundary, hold exactly.  The char patterns `'t'` and
`'m'` are the one-character string patterns `"t"` and `"m"`. -/
theorem C5_literal_examples :
    trim_left_matches_exactly "not trimmed".data "not ".data 1 = Except.ok "trimmed".data ∧
    trim_left_matches_exactly "not trimmed".data "very ".data 1
      = Except.error "not trimmed".data ∧
    trim_left_matches_exactly "tttrimmed".data "t".data 2 = Except.ok "trimmed".data ∧
    trim_right_matches_exactly "trim me!".data " me!".data 1 = Except.ok "trim".data ∧
    trim_right_matches_exactly "trim me!".data " you!".data 1
      = Except.error "trim me!".data ∧
    trim_right_matches_exactly "trimmm".data "m".data 2 = Except.ok "trim".data ∧
    trim_left_matches_exactly "aab".data "a".data 3 = Except.error "aab".data := by
  refine ⟨?_, ?_, ?_, ?_, ?_, ?_, ?_⟩ <;> decide

/-- Claim C7: the empty-pattern match-count boundary on `"aab"`: the
empty pattern matches once (a zero-length match at offset 0) but not
twice (the second step is a `Reject`). -/
theorem C7_empty_pattern_boundary :
    trim_left_matches_exactly "aab".data [] 1 = Except.ok "aab".data ∧
    trim_left_matches_exactly "aab".data [] 2 = Except.error "aab".data := by
  constructor <;> decide

/-- Claim C8: overlapping matches are never counted: trimming `"aaa"` of
pattern `"aa"` with count 2 fails even though `"aa"` occurs at both of
the overlapping offsets 0 and 1 (witnessed by the two prefix facts). -/
theorem C8_no_overlap :
    trim_left_matches_exactly "aaa".data "aa".data 2 = Except.error "aaa".data ∧
    "aa".data.isPrefixOf ("aaa".data.drop 0) = true ∧
    "aa".data.isPrefixOf ("aaa".data.drop 1) = true := by
  refine ⟨?_, ?_, ?_⟩ <;> decide

theorem prefixPow_succ (pat : List Char) :
    ∀ (n : Nat) (rest : List Char),
      prefixPow pat (n + 1) rest
        = (prefixPow pat n rest && pat.isPrefixOf (rest.drop (n * pat.length))) := by
  intro n
  induction n with
  | zero => intro rest; simp [prefixPow]
  | succ n ih =>
    intro rest
    show (pat.isPrefixOf rest && prefixPow pat (n + 1) (rest.drop pat.length)) = _
    rw [ih (rest.drop pat.length), List.drop_drop]
    have hidx : pat.length + n * pat.length = (n + 1) * pat.length := by
      rw [Nat.succ_mul]; omega
    rw [hidx,
      show prefixPow pat (n + 1) rest
        = (pat.isPrefixOf rest && prefixPow pat n (rest.drop pat.length)) from rfl,
      Bool.and_assoc]

/-- Counterexample to claim C4 as stated: for the empty pattern on
`"aab"`, count 0 returns `Ok("aab")` and count 1 returns the very same
`Ok("aab")` again — neither a failure nor a strictly shorter result. -/
theorem C4_counterexample :
    trim_left_matches_exactly "aab".data [] 0 = Except.ok "aab".data ∧
    ¬ (trim_left_matches_exactly "aab".data [] (0 + 1) = Except.error "aab".data ∨
        ∃ R', trim_left_matches_exactly "aab".data [] (0 + 1) = Except.ok R' ∧
          R'.length < "aab".data.length) := by
  constructor
  · decide
  · intro h
    have hok : trim_left_matches_exactly "aab".data [] (0 + 1) = Except.ok "aab".data := by
      decide
    rcases h with h | ⟨R', hR', hlt⟩
    · rw [hok] at h
      exact Except.noConfusion h
    · rw [hok] at hR'
      have hR : "aab".data = R' := Except.ok.inj hR'
      rw [← hR] at hlt
      exact Nat.lt_irrefl _ hlt

/-- Claim C4, amended: for a NON-EMPTY pattern, if
`trim_left_matches_exactly(T, P, n) = Ok(R)`, then
`trim_left_matches_exactly(T, P, n+1)` either fails with `Err(T)` or
succeeds with a strictly shorter result `R'` that is exactly one more
trim applied to `R`.  (The original claim fails for the empty pattern,
see the counterexample.) -/
theorem C4_exactness_nonempty (text pat : List Char) (n : Nat) (R : List Char)
    (hpat : pat ≠ []) (h : trim_left_matches_exactly text pat n = Except.ok R) :
    trim_left_matches_exactly text pat (n + 1) = Except.error text ∨
    ∃ R', trim_left_matches_exactly text pat (n + 1) = Except.ok R' ∧
      R'.length < R.length ∧ trim_left_matches_exactly R pat 1 = Except.ok R' := by
  rw [trim_left_closed text pat hpat n] at h
  cases hn : prefixPow pat n text with
  | false => rw [hn] at h; exact Except.noConfusion h
  | true =>
    rw [hn] at h
    simp only [if_pos] at h
    have hR : text.drop (n * pat.length) = R := Except.ok.inj h
    rw [trim_left_closed text pat hpat (n + 1), prefixPow_succ pat n text, hn, Bool.true_and,
      hR]
    cases hpre : pat.isPrefixOf R with
    | false =>
      left
      simp
    | true =>
      right
      refine ⟨text.drop ((n + 1) * pat.length), by simp, ?_, ?_⟩
      · have hd : text.drop ((n + 1) * pat.length) = R.drop pat.length := by
          rw [← hR, List.drop_drop]
          have : n * pat.length + pat.length = (n + 1) * pat.length := by
            rw [Nat.succ_mul]
          rw [this]
        rw [hd, List.length_drop]
        have hple : pat.length ≤ R.length := isPrefixOf_length_le hpre
        have hppos : 0 < pat.length := List.length_pos.mpr hpat
        omega
      · rw [trim_left_closed R pat hpat 1]
        have h1 : prefixPow pat 1 R = true := by
          simp [prefixPow, hpre]
        rw [h1]
        simp only [if_pos, Nat.one_mul]
        rw [← hR, List.drop_drop]
        have : n * pat.length + pat.length = (n + 1) * pat.length := by
          rw [Nat.succ_mul]
        rw [this]

/-- Witness for C4 (amended) at text `"aab"`, pattern `"a"`, count 1. -/
theorem C4_exactness_nonempty_witness :
    trim_left_matches_exactly "aab".data "a".data (1 + 1) = Except.error "aab".data ∨
    ∃ R', trim_left_matches_exactly "aab".data "a".data (1 + 1) = Except.ok R' ∧
      R'.length < "ab".data.length ∧
      trim_left_matches_exactly "ab".data "a".data 1 = Except.ok R' :=
  C4_exactness_nonempty "aab".data "a".data 1 "ab".data (by decide) (by decide)

/-- Claim C9: both operations are total (no panic, modelled as total Lean
functions) and every offset passed to `slice_unchecked` — the loop's
`trim_idx` when it succeeds, plus the fixed endpoints `0 = bytePos text 0`
and `self.len() = byteLen text = bytePos text text.length` — lies within
the text's byte bounds and on a valid char boundary (`bytePos text k` for
some `k ≤ text.length`), under the searcher contract. -/
theorem C9_slice_offsets_valid (text pat : List Char) (count : Nat) :
    (∀ i, trimLeftLoop (strSearcherNext pat text) count (into_searcher text) 0 = some i →
      i ≤ byteLen text ∧ ∃ k, k ≤ text.length ∧ i = bytePos text k) ∧
    (∀ i, trimRightLoop (strSearcherNextBack pat text) count (into_searcher text)
        (byteLen text) = some i →
      i ≤ byteLen text ∧ ∃ k, k ≤ text.length ∧ i = bytePos text k) ∧
    byteLen text = bytePos text text.length := by
  refine ⟨?_, ?_, (bytePos_length text).symm⟩
  · intro i h
    have hv := trimLeftLoop_boundary text pat count 0 text.length false false 0 i
      (Nat.zero_le _) ⟨0, Nat.zero_le _, rfl⟩ h
    rcases hv with ⟨k, hk, hi⟩
    exact ⟨hi ▸ bytePos_le_byteLen text k, k, hk, hi⟩
  · intro i h
    have hv := trimRightLoop_boundary text pat count 0 text.length false false (byteLen text) i
      (Nat.le_refl _) ⟨text.length, Nat.le_refl _, (bytePos_length text).symm⟩ h
    rcases hv with ⟨k, hk, hi⟩
    exact ⟨hi ▸ bytePos_le_byteLen text k, k, hk, hi⟩

/-- Witness for C9, pattern `"a"`, count 1: on `"aab"` the left loop
yields `trim_idx = 1`; on `"baa"` the right loop yields `trim_idx = 2`. -/
theorem C9_slice_offsets_valid_witness :
    (1 ≤ byteLen "aab".data ∧ ∃ k, k ≤ "aab".data.length ∧ 1 = bytePos "aab".data k) ∧
    (2 ≤ byteLen "baa".data ∧ ∃ k, k ≤ "baa".data.length ∧ 2 = bytePos "baa".data k) :=
  ⟨(C9_slice_offsets_valid "aab".data "a".data 1).1 1 (by decide),
   (C9_slice_offsets_valid "baa".data "a".data 1).2.1 2 (by decide)⟩

/-- Claim C10: for a palindromic text and a single-character pattern
(itself trivially palindromic), trimming `n` times from the start and
from the end produce results of equal length — both `Ok` with equal-length
slices, or both `Err` with the original text. -/
theorem C10_palindrome_symmetry (t : List Char) (c : Char) (n : Nat) (hpal : t.reverse = t) :
    (trim_left_matches_exactly t [c] n = Except.error t ∧
      trim_right_matches_exactly t [c] n = Except.error t) ∨
    (∃ RL RR, trim_left_matches_exactly t [c] n = Except.ok RL ∧
      trim_right_matches_exactly t [c] n = Except.ok RR ∧ RL.length = RR.length) := by
  have hpat : ([c] : List Char) ≠ [] := by simp
  rw [trim_left_closed t [c] hpat n, trim_right_closed t [c] hpat n]
  have hcond : suffixPow [c] n t = prefixPow [c] n t := by
    rw [suffixPow_reverse [c] n t, hpal, List.reverse_singleton]
  rw [hcond]
  cases hc : prefixPow [c] n t with
  | false =>
    left
    constructor <;> simp
  | true =>
    right
    refine ⟨t.drop (n * [c].length), t.take (t.length - n * [c].length), by simp, by simp, ?_⟩
    simp only [List.length_drop, List.length_take, List.length_singleton]
    omega

/-- Witness for C10 at the palindrome `"aba"`, character `'a'`, count 1. -/
theorem C10_palindrome_symmetry_witness :
    (trim_left_matches_exactly "aba".data ['a'] 1 = Except.error "aba".data ∧
      trim_right_matches_exactly "aba".data ['a'] 1 = Except.error "aba".data) ∨
    (∃ RL RR, trim_left_matches_exactly "aba".data ['a'] 1 = Except.ok RL ∧
      trim_right_matches_exactly "aba".data ['a'] 1 = Except.ok RR ∧ RL.length = RR.length) :=
  C10_palindrome_symmetry "aba".data 'a' 1 (by decide)
